import Mathlib

/-!
Verification of the block compressed sparse row (BSR) matrix of
`include/sparse/sparse_matrix.h` (`A2D::BSRMat<T, M, N>`).

The C++ class stores a fixed sparsity pattern (`rowp`, `cols`), a value
buffer `vals` of shape `(nnz, M, N)`, and passive solver metadata
(`diag`, `perm`, `iperm`, `num_colors`, `color_count`).  The embedding
below represents the unsigned `index_t` indices as `Nat`, the arrays as
lists read through `List.getD` (matching `operator[]` access), and the
scalar type `T` as an arbitrary type carrying the instances each
operation needs.  Loops become folds over index ranges in the same
iteration order as the source.
-/

namespace A2D

set_option autoImplicit false

/-- Modelled from the spec: the index type `index_t` and its largest value
`MAX_INDEX` come from `a2dobjs.h`, which is not among the shown sources.
The spec describes `MAX_INDEX` as a reserved not-found sentinel distinct
from any valid storage index; `index_t` is an unsigned 32-bit integer, so
the sentinel is the largest `UInt32` value. -/
def MAX_INDEX : Nat := 4294967295

/-- Update the element at position `k` of a list with `f`, leaving the list
unchanged when `k` is out of range.  This models an in-place array store. -/
def updAt {α : Type _} : List α → Nat → (α → α) → List α
  | [], _, _ => []
  | a :: t, 0, f => f a :: t
  | a :: t, k + 1, f => a :: updAt t k f

/-- Store `x` at position `k` of a list. -/
def setAt {α : Type _} (l : List α) (k : Nat) (x : α) : List α :=
  updAt l k (fun _ => x)

/-- Read the scalar at block `p`, block row `r`, block column `c` of the
three-dimensional value buffer, the counterpart of `vals(p, r, c)`. -/
def vals3 {T : Type} [Zero T] (v : List (List (List T))) (p r c : Nat) : T :=
  ((v.getD p []).getD r []).getD c 0

/-- Apply `f` to the scalar at `(p, r, c)` of the value buffer. -/
def modify3 {T : Type} (v : List (List (List T))) (p r c : Nat) (f : T → T) :
    List (List (List T)) :=
  updAt v p (fun blk => updAt blk r (fun row => updAt row c f))

/-- Store `x` at `(p, r, c)` of the value buffer. -/
def setAt3 {T : Type} (v : List (List (List T))) (p r c : Nat) (x : T) :
    List (List (List T)) :=
  modify3 v p r c (fun _ => x)

/-- Concatenated image of a list under a list-valued function; used to
flatten the nested loops of the export routines into a single write list. -/
def catMap {α γ : Type _} (g : α → List γ) : List α → List γ
  | [] => []
  | a :: t => g a ++ catMap g t

/-- The half-open index range `[s, e)`, iterated in increasing order:
the loop `for (jp = s; jp < e; jp++)`. -/
def rangeFromTo (s e : Nat) : List Nat :=
  (List.range (e - s)).map (fun k => s + k)

/-- The fields of `A2D::BSRMat<T, M, N>`: block-row and block-column
counts, the number of nonzero blocks, the CSR pattern `rowp`/`cols`, the
passive metadata slots, and the `(nnz, M, N)` value buffer. -/
structure BSRMat (M N : Nat) (T : Type) where
  nbrows : Nat
  nbcols : Nat
  nnz : Nat
  rowp : List Nat
  cols : List Nat
  diag : List Nat
  perm : List Nat
  iperm : List Nat
  num_colors : Nat
  color_count : List Nat
  vals : List (List (List T))

/-- The constructor `BSRMat(nbrows, nbcols, nnz, rowp_, cols_)`: copies
`rowp_[0..nbrows]` and `cols_[0..nnz)` element-wise into newly owned
storage and allocates the value buffer of `nnz` blocks of shape `M`
by `N` (the backing `MultiArrayNew` of `array.h` is not among the shown
sources; its freshly allocated buffer is modelled as zero-filled).  The
metadata slots `diag`, `perm`, `iperm`, `color_count` are unallocated, and
`num_colors` is uninitialised, modelled as zero. -/
def mkBSRMat (M N : Nat) {T : Type} [Zero T] (nbrows nbcols nnz : Nat)
    (rowp_ cols_ : Nat → Nat) : BSRMat M N T :=
  { nbrows := nbrows
    nbcols := nbcols
    nnz := nnz
    rowp := (List.range (nbrows + 1)).map rowp_
    cols := (List.range nnz).map cols_
    diag := []
    perm := []
    iperm := []
    num_colors := 0
    color_count := []
    vals := List.replicate nnz (List.replicate M (List.replicate N 0)) }

/-- `zero()`: overwrite every scalar of `vals` with the additive identity.
Modelled from the spec: the body calls `A2D::BLAS::zero(vals)`, whose
definition is not among the shown sources; the spec describes it as
overwriting every scalar in the value buffer with the additive identity. -/
def BSRMat.zero {M N : Nat} {T : Type} [Zero T] (A : BSRMat M N T) : BSRMat M N T :=
  { A with
    vals := A.vals.map (fun blk => blk.map (fun row => row.map (fun _ => (0 : T)))) }

/-- The scan loop of `find_column_index`: starting at `jp`, test
`fuel` consecutive positions of `cols` against `col`, returning the first
match or `MAX_INDEX`. -/
def scanColsAux (cols : List Nat) (col : Nat) : Nat → Nat → Nat
  | _, 0 => MAX_INDEX
  | jp, fuel + 1 =>
    if cols.getD jp 0 = col then jp else scanColsAux cols col (jp + 1) fuel

/-- `find_column_index(row, col)`: linear scan of
`cols[rowp[row] .. rowp[row+1])` for `col`; the first matching storage
index, or `MAX_INDEX` when the block is absent. -/
def BSRMat.find_column_index {M N : Nat} {T : Type} (A : BSRMat M N T)
    (row col : Nat) : Nat :=
  scanColsAux A.cols col (A.rowp.getD row 0)
    (A.rowp.getD (row + 1) 0 - A.rowp.getD row 0)

/-- The body of the doubly nested loop of `add_values` at the pair
`q = (ii, jj)`: decompose the two global scalar indices into block index
and in-block offset, look the block up, and on success add `mat ii jj`
into the matching scalar; on `MAX_INDEX` do nothing. -/
def addStep {M N : Nat} {T : Type} [Add T] (i j : Nat → Nat) (mat : Nat → Nat → T)
    (A1 : BSRMat M N T) (q : Nat × Nat) : BSRMat M N T :=
  let block_row := i q.1 / M
  let eq_row := i q.1 % M
  let block_col := j q.2 / N
  let eq_col := j q.2 % N
  let jp := A1.find_column_index block_row block_col
  if jp ≠ MAX_INDEX then
    { A1 with vals := modify3 A1.vals jp eq_row eq_col (fun x => x + mat q.1 q.2) }
  else A1

/-- `add_values(m, i, n, j, mat)`: scatter-add the `m` by `n` local matrix
`mat`, addressed by the global scalar index arrays `i` and `j`, into the
value buffer, iterating rows in the outer loop and columns in the inner
loop as in the source. -/
def BSRMat.add_values {M N : Nat} {T : Type} [Add T] (A : BSRMat M N T)
    (m : Nat) (i : Nat → Nat) (n : Nat) (j : Nat → Nat) (mat : Nat → Nat → T) :
    BSRMat M N T :=
  (List.range m).foldl (fun A0 ii =>
    (List.range n).foldl (fun A1 jj => addStep i j mat A1 (ii, jj)) A0) A

/-- The body of the inner loop of `zero_rows` at storage slot `jp`: zero
the in-block row `er` of the block, then, when the block sits on the
diagonal (`cols[jp] == br`), store the multiplicative identity at the
diagonal position `(er, er)`. -/
def zrInner {M N : Nat} {T : Type} [Zero T] [One T] (br er : Nat)
    (A1 : BSRMat M N T) (jp : Nat) : BSRMat M N T :=
  let A2 : BSRMat M N T :=
    { A1 with vals := (List.range N).foldl (fun v k => setAt3 v jp er k 0) A1.vals }
  if A2.cols.getD jp 0 = br then
    { A2 with vals := setAt3 A2.vals jp er er 1 }
  else A2

/-- The body of the outer loop of `zero_rows` for the constrained DOF
`dof ii`: decompose it into block row and in-block row offset and walk the
storage slots of that block row. -/
def zrOuter {M N : Nat} {T : Type} [Zero T] [One T] (dof : Nat → Nat)
    (A0 : BSRMat M N T) (ii : Nat) : BSRMat M N T :=
  let br := dof ii / M
  let er := dof ii % M
  (rangeFromTo (A0.rowp.getD br 0) (A0.rowp.getD (br + 1) 0)).foldl (zrInner br er) A0

/-- `zero_rows(nbcs, dof)`: for each of the `nbcs` constrained global
scalar DOFs, zero its scalar row and re-assert the identity on the
diagonal block when present. -/
def BSRMat.zero_rows {M N : Nat} {T : Type} [Zero T] [One T] (A : BSRMat M N T)
    (nbcs : Nat) (dof : Nat → Nat) : BSRMat M N T :=
  (List.range nbcs).foldl (zrOuter dof) A

/-- `to_dense(&m, &n, &A)`: allocate an `M*nbrows` by `N*nbcols` scalar
buffer, zero-fill it, and copy every stored block into its dense
sub-block; returns the dimensions and the row-major buffer. -/
def BSRMat.to_dense {M N : Nat} {T : Type} [Zero T] (A : BSRMat M N T) :
    Nat × Nat × List T :=
  let m := M * A.nbrows
  let n := N * A.nbcols
  let buf0 : List T := List.replicate (m * n) 0
  let buf := (List.range A.nbrows).foldl (fun b i =>
    (rangeFromTo (A.rowp.getD i 0) (A.rowp.getD (i + 1) 0)).foldl (fun b jp =>
      (List.range M).foldl (fun b ii =>
        (List.range N).foldl (fun b jj =>
          setAt b (n * (M * i + ii) + (N * A.cols.getD jp 0 + jj))
            (vals3 A.vals jp ii jj)) b) b) b) buf0
  (m, n, buf)

/-- The text file produced by `write_mtx`, abstracted from bytes: the
header line, the three numbers of the size line, and the entry lines as
triples of one-based scalar row, one-based scalar column, and value. -/
structure MtxFile (T : Type) where
  header : String
  nrows : Nat
  ncols : Nat
  nnzEntries : Nat
  entries : List (Nat × Nat × T)

/-- `write_mtx(path)`: the MatrixMarket coordinate-real-general header, the
size line `nbrows*M nbcols*N nnz*M*N`, and one entry line per stored
scalar, iterating block rows, then the slots of each block row, then the
`M` by `N` scalars of each block, with one-based coordinates. -/
def BSRMat.write_mtx {M N : Nat} {T : Type} [Zero T] (A : BSRMat M N T) : MtxFile T :=
  { header := "%%MatrixMarket matrix coordinate real general"
    nrows := A.nbrows * M
    ncols := A.nbcols * N
    nnzEntries := A.nnz * M * N
    entries := catMap (fun i =>
      catMap (fun jp =>
        catMap (fun ii =>
          (List.range N).map (fun jj =>
            (M * i + ii + 1, (N * A.cols.getD jp 0 + jj + 1, vals3 A.vals jp ii jj))))
          (List.range M))
        (rangeFromTo (A.rowp.getD i 0) (A.rowp.getD (i + 1) 0)))
      (List.range A.nbrows) }

/-- The CSR invariants the caller must guarantee at construction: array
lengths, `rowp[0] = 0`, `rowp[nbrows] = nnz`, monotone row pointers,
in-range block-column indices, and addressability of every storage slot
below the `MAX_INDEX` sentinel. -/
abbrev validPattern {M N : Nat} {T : Type} (A : BSRMat M N T) : Prop :=
  A.rowp.length = A.nbrows + 1 ∧
  A.cols.length = A.nnz ∧
  A.rowp.getD 0 0 = 0 ∧
  A.rowp.getD A.nbrows 0 = A.nnz ∧
  (∀ k, k < A.nbrows → A.rowp.getD k 0 ≤ A.rowp.getD (k + 1) 0) ∧
  (∀ p, p < A.nnz → A.cols.getD p 0 < A.nbcols) ∧
  A.nnz < MAX_INDEX

/-- Shape of the value buffer: `K` blocks, each `M` rows of `N` scalars. -/
abbrev valsShape (M N : Nat) {T : Type} (v : List (List (List T))) (K : Nat) : Prop :=
  v.length = K ∧ ∀ blk ∈ v, blk.length = M ∧ ∀ row ∈ blk, row.length = N

/-- No block row of the pattern lists the same block column twice. -/
abbrev dupFree {M N : Nat} {T : Type} (A : BSRMat M N T) : Prop :=
  ∀ r, r < A.nbrows → ∀ p, p < A.rowp.getD (r + 1) 0 →
    ∀ q, q < A.rowp.getD (r + 1) 0 →
    (A.rowp.getD r 0 ≤ p ∧ A.rowp.getD r 0 ≤ q ∧
      A.cols.getD p 0 = A.cols.getD q 0) → p = q

/-- Two matrices share every field except possibly the value buffer: the
sparsity pattern and the solver metadata agree. -/
def samePattern {M N : Nat} {T : Type} (A B : BSRMat M N T) : Prop :=
  A.nbrows = B.nbrows ∧ A.nbcols = B.nbcols ∧ A.nnz = B.nnz ∧
  A.rowp = B.rowp ∧ A.cols = B.cols ∧ A.diag = B.diag ∧ A.perm = B.perm ∧
  A.iperm = B.iperm ∧ A.num_colors = B.num_colors ∧ A.color_count = B.color_count

/-- The row-major list of loop pairs `(ii, jj)` visited by the doubly
nested loop of `add_values`. -/
def pairList (m n : Nat) : List (Nat × Nat) :=
  catMap (fun ii => (List.range n).map (fun jj => (ii, jj))) (List.range m)

/-- The flat list of scalar writes performed by the copy loops of
`to_dense`, in loop order: each element is the row-major position in the
dense buffer paired with the value written there. -/
def denseWrites {M N : Nat} {T : Type} [Zero T] (A : BSRMat M N T) :
    List (Nat × T) :=
  catMap (fun i =>
    catMap (fun jp =>
      catMap (fun ii =>
        (List.range N).map (fun jj =>
          (N * A.nbcols * (M * i + ii) + (N * A.cols.getD jp 0 + jj),
            vals3 A.vals jp ii jj)))
        (List.range M))
      (rangeFromTo (A.rowp.getD i 0) (A.rowp.getD (i + 1) 0)))
    (List.range A.nbrows)

/-- The value of the last write to position `q` in a write list, if any. -/
def lastWrite {T : Type} (ws : List (Nat × T)) (q : Nat) : Option T :=
  ws.foldl (fun acc w => if w.1 = q then some w.2 else acc) none

/-- Row pointers of the worked example of the spec: `rowp = [0, 1, 2]`. -/
def exRowp : Nat → Nat := fun k => [0, 1, 2].getD k 0

/-- Column indices of the worked example of the spec: `cols = [0, 1]`. -/
def exCols : Nat → Nat := fun k => [0, 1].getD k 0

/-- The worked example of the spec: a diagonal-only pattern with
`M = N = 2`, `nbrows = nbcols = 2`, over the integers. -/
def Aex : BSRMat 2 2 Int := mkBSRMat 2 2 2 2 2 exRowp exCols

/-- Global row DOF indices of the example assembly call. -/
def exI : Nat → Nat := fun k => k

/-- Global column DOF indices of the example assembly call. -/
def exJ : Nat → Nat := fun k => k

/-- Local element matrix of the example assembly call. -/
def exMat : Nat → Nat → Int := fun ii jj => ((10 * ii + jj : Nat) : Int)

/-- The example matrix with the local matrix assembled into it. -/
def Bex : BSRMat 2 2 Int := Aex.add_values 4 exI 4 exJ exMat

/-! ### Basic lemmas about the array helpers -/

theorem length_updAt {α : Type _} (l : List α) (k : Nat) (f : α → α) :
    (updAt l k f).length = l.length := by
  induction l generalizing k with
  | nil => rfl
  | cons a t ih =>
    cases k with
    | zero => rfl
    | succ k => simp [updAt, ih]

theorem updAt_of_le {α : Type _} (l : List α) (k : Nat) (f : α → α)
    (h : l.length ≤ k) : updAt l k f = l := by
  induction l generalizing k with
  | nil => rfl
  | cons a t ih =>
    cases k with
    | zero => simp at h
    | succ k => simp [updAt, ih k (by simpa using h)]

theorem getD_updAt_eq {α : Type _} (l : List α) (k : Nat) (f : α → α) (d : α)
    (h : k < l.length) : (updAt l k f).getD k d = f (l.getD k d) := by
  induction l generalizing k with
  | nil => simp at h
  | cons a t ih =>
    cases k with
    | zero => rfl
    | succ k => simpa [updAt] using ih k (by simpa using h)

theorem getD_updAt_ne {α : Type _} (l : List α) (k k' : Nat) (f : α → α) (d : α)
    (h : k ≠ k') : (updAt l k f).getD k' d = l.getD k' d := by
  induction l generalizing k k' with
  | nil => rfl
  | cons a t ih =>
    cases k with
    | zero =>
      cases k' with
      | zero => exact absurd rfl h
      | succ k' => rfl
    | succ k =>
      cases k' with
      | zero => rfl
      | succ k' => simpa [updAt] using ih k k' (by omega)

theorem mem_updAt {α : Type _} {l : List α} {k : Nat} {f : α → α} {x : α}
    (hx : x ∈ updAt l k f) : x ∈ l ∨ ∃ y ∈ l, x = f y := by
  induction l generalizing k with
  | nil => simp [updAt] at hx
  | cons a t ih =>
    cases k with
    | zero =>
      rcases (by simpa [updAt] using hx : x = f a ∨ x ∈ t) with h | h
      · exact Or.inr ⟨a, by simp, h⟩
      · exact Or.inl (List.mem_cons_of_mem a h)
    | succ k =>
      rcases (by simpa [updAt] using hx : x = a ∨ x ∈ updAt t k f) with h | h
      · exact Or.inl (by simp [h])
      · rcases ih h with h2 | ⟨y, hy, hxy⟩
        · exact Or.inl (List.mem_cons_of_mem a h2)
        · exact Or.inr ⟨y, List.mem_cons_of_mem a hy, hxy⟩

theorem getD_mem_of_lt {α : Type _} {l : List α} {k : Nat} (d : α)
    (h : k < l.length) : l.getD k d ∈ l := by
  induction l generalizing k with
  | nil => simp at h
  | cons a t ih =>
    cases k with
    | zero => simp
    | succ k => exact List.mem_cons_of_mem a (ih (by simpa using h))

/-! ### Lemmas about the three-dimensional value buffer -/

theorem length_modify3 {T : Type} (v : List (List (List T))) (p r c : Nat)
    (f : T → T) : (modify3 v p r c f).length = v.length :=
  length_updAt v p _

theorem valsShape_modify3 {M N : Nat} {T : Type} {v : List (List (List T))}
    {K : Nat} (hv : valsShape M N v K) (p r c : Nat) (f : T → T) :
    valsShape M N (modify3 v p r c f) K := by
  obtain ⟨hlen, hblk⟩ := hv
  refine ⟨(length_modify3 v p r c f).trans hlen, ?_⟩
  intro blk hb
  rcases mem_updAt hb with hb | ⟨y, hy, rfl⟩
  · exact hblk blk hb
  · obtain ⟨hyl, hyr⟩ := hblk y hy
    refine ⟨(length_updAt y r _).trans hyl, ?_⟩
    intro row hr
    rcases mem_updAt hr with hr | ⟨z, hz, rfl⟩
    · exact hyr row hr
    · exact (length_updAt z c f).trans (hyr z hz)

theorem vals3_modify3_eq {M N : Nat} {T : Type} [Zero T]
    {v : List (List (List T))} {K : Nat} (hv : valsShape M N v K)
    {p r c : Nat} (hp : p < K) (hr : r < M) (hc : c < N) (f : T → T) :
    vals3 (modify3 v p r c f) p r c = f (vals3 v p r c) := by
  obtain ⟨hlen, hblk⟩ := hv
  have hpv : p < v.length := by omega
  have hb : v.getD p [] ∈ v := getD_mem_of_lt [] hpv
  obtain ⟨hbl, hbr⟩ := hblk _ hb
  have hrow : (v.getD p []).getD r [] ∈ v.getD p [] :=
    getD_mem_of_lt [] (by omega)
  have hrl := hbr _ hrow
  unfold vals3 modify3
  rw [getD_updAt_eq v p _ [] hpv, getD_updAt_eq _ r _ [] (by omega),
    getD_updAt_eq _ c f 0 (by omega)]

theorem vals3_modify3_ne {T : Type} [Zero T]
    (v : List (List (List T))) (p r c p' r' c' : Nat) (f : T → T)
    (h : p ≠ p' ∨ r ≠ r' ∨ c ≠ c') :
    vals3 (modify3 v p r c f) p' r' c' = vals3 v p' r' c' := by
  unfold vals3 modify3
  rcases h with h | h | h
  · rw [getD_updAt_ne v p p' _ [] h]
  · by_cases hp : p = p'
    · subst hp
      by_cases hpl : p < v.length
      · rw [getD_updAt_eq v p _ [] hpl, getD_updAt_ne _ r r' _ [] h]
      · rw [updAt_of_le v p _ (by omega)]
    · rw [getD_updAt_ne v p p' _ [] hp]
  · by_cases hp : p = p'
    · subst hp
      by_cases hpl : p < v.length
      · rw [getD_updAt_eq v p _ [] hpl]
        by_cases hrl : r < (v.getD p []).length
        · by_cases hr : r = r'
          · subst hr
            rw [getD_updAt_eq _ r _ [] hrl, getD_updAt_ne _ c c' f 0 h]
          · rw [getD_updAt_ne _ r r' _ [] hr]
        · rw [updAt_of_le _ r _ (by omega)]
      · rw [updAt_of_le v p _ (by omega)]
    · rw [getD_updAt_ne v p p' _ [] hp]

theorem vals3_setAt3_eq {M N : Nat} {T : Type} [Zero T]
    {v : List (List (List T))} {K : Nat} (hv : valsShape M N v K)
    {p r c : Nat} (hp : p < K) (hr : r < M) (hc : c < N) (x : T) :
    vals3 (setAt3 v p r c x) p r c = x :=
  vals3_modify3_eq hv hp hr hc _

theorem vals3_setAt3_ne {T : Type} [Zero T]
    (v : List (List (List T))) (p r c : Nat) (x : T) (p' r' c' : Nat)
    (h : p ≠ p' ∨ r ≠ r' ∨ c ≠ c') :
    vals3 (setAt3 v p r c x) p' r' c' = vals3 v p' r' c' :=
  vals3_modify3_ne v p r c p' r' c' _ h

/-! ### Lemmas about `catMap` and `rangeFromTo` -/

theorem mem_catMap {α γ : Type _} {g : α → List γ} {l : List α} {x : γ} :
    x ∈ catMap g l ↔ ∃ a ∈ l, x ∈ g a := by
  induction l with
  | nil => simp [catMap]
  | cons a t ih => simp [catMap, ih]

theorem foldl_catMap {α β γ : Type _} (g : α → List γ) (step : β → γ → β)
    (l : List α) (b : β) :
    (catMap g l).foldl step b = l.foldl (fun b x => (g x).foldl step b) b := by
  induction l generalizing b with
  | nil => rfl
  | cons a t ih => simp [catMap, List.foldl_append, ih]

theorem length_catMap {α γ : Type _} (g : α → List γ) (l : List α) :
    (catMap g l).length = (l.map (fun a => (g a).length)).sum := by
  induction l with
  | nil => rfl
  | cons a t ih => simp [catMap, ih]

theorem mem_rangeFromTo {s e x : Nat} : x ∈ rangeFromTo s e ↔ s ≤ x ∧ x < e := by
  unfold rangeFromTo
  simp only [List.mem_map, List.mem_range]
  constructor
  · rintro ⟨k, hk, rfl⟩
    omega
  · rintro ⟨h1, h2⟩
    exact ⟨x - s, by omega, by omega⟩

theorem length_rangeFromTo (s e : Nat) : (rangeFromTo s e).length = e - s := by
  simp [rangeFromTo]

theorem nodup_rangeFromTo (s e : Nat) : (rangeFromTo s e).Nodup := by
  unfold rangeFromTo
  exact List.Nodup.map (fun a b hab => by omega) (List.nodup_range _)

/-! ### Lemmas about the row-pointer array of a valid pattern -/

theorem rowp_mono {M N : Nat} {T : Type} {A : BSRMat M N T} (hA : validPattern A)
    {a b : Nat} (hab : a ≤ b) (hb : b ≤ A.nbrows) :
    A.rowp.getD a 0 ≤ A.rowp.getD b 0 := by
  induction b with
  | zero =>
    have ha : a = 0 := by omega
    subst ha
    exact le_refl _
  | succ b ih =>
    rcases Nat.lt_or_ge a (b + 1) with h | h
    · exact le_trans (ih (by omega) (by omega)) (hA.2.2.2.2.1 b (by omega))
    · have ha : a = b + 1 := by omega
      subst ha
      exact le_refl _

theorem rowp_le_nnz {M N : Nat} {T : Type} {A : BSRMat M N T} (hA : validPattern A)
    {k : Nat} (hk : k ≤ A.nbrows) : A.rowp.getD k 0 ≤ A.nnz := by
  have h := rowp_mono hA hk (le_refl A.nbrows)
  rw [hA.2.2.2.1] at h
  exact h

theorem rowRanges_disjoint {M N : Nat} {T : Type} {A : BSRMat M N T}
    (hA : validPattern A) {r r' p : Nat} (hne : r ≠ r') (hr : r < A.nbrows)
    (hr' : r' < A.nbrows) (h1 : A.rowp.getD r 0 ≤ p) (h2 : p < A.rowp.getD (r + 1) 0) :
    ¬(A.rowp.getD r' 0 ≤ p ∧ p < A.rowp.getD (r' + 1) 0) := by
  rintro ⟨h3, h4⟩
  rcases Nat.lt_or_ge r r' with h | h
  · have := rowp_mono hA (show r + 1 ≤ r' by omega) (by omega)
    omega
  · have := rowp_mono hA (show r' + 1 ≤ r by omega) (by omega)
    omega

/-! ### Specification of the column-index scan -/

theorem scanColsAux_result (cols : List Nat) (col : Nat) (fuel jp : Nat) :
    scanColsAux cols col jp fuel = MAX_INDEX ∨
      (jp ≤ scanColsAux cols col jp fuel ∧
        scanColsAux cols col jp fuel < jp + fuel ∧
        cols.getD (scanColsAux cols col jp fuel) 0 = col) := by
  induction fuel generalizing jp with
  | zero => exact Or.inl rfl
  | succ fuel ih =>
    by_cases h : cols.getD jp 0 = col
    · refine Or.inr ?_
      simp only [scanColsAux, if_pos h]
      exact ⟨le_refl jp, by omega, h⟩
    · simp only [scanColsAux, if_neg h]
      rcases ih (jp + 1) with h2 | ⟨h2, h3, h4⟩
      · exact Or.inl h2
      · exact Or.inr ⟨by omega, by omega, h4⟩

theorem scanColsAux_of_exists (cols : List Nat) (col : Nat) (fuel jp : Nat)
    (h : ∃ q, jp ≤ q ∧ q < jp + fuel ∧ cols.getD q 0 = col) :
    jp ≤ scanColsAux cols col jp fuel ∧
      scanColsAux cols col jp fuel < jp + fuel ∧
      cols.getD (scanColsAux cols col jp fuel) 0 = col := by
  induction fuel generalizing jp with
  | zero =>
    obtain ⟨q, h1, h2, _⟩ := h
    omega
  | succ fuel ih =>
    by_cases hj : cols.getD jp 0 = col
    · simp only [scanColsAux, if_pos hj]
      exact ⟨le_refl jp, by omega, hj⟩
    · obtain ⟨q, h1, h2, h3⟩ := h
      have hq : jp + 1 ≤ q := by
        rcases Nat.eq_or_lt_of_le h1 with rfl | h
        · exact absurd h3 hj
        · omega
      obtain ⟨r1, r2, r3⟩ := ih (jp + 1) ⟨q, hq, by omega, h3⟩
      simp only [scanColsAux, if_neg hj]
      exact ⟨by omega, by omega, r3⟩

theorem find_column_index_result {M N : Nat} {T : Type} {A : BSRMat M N T}
    (hA : validPattern A) {row : Nat} (hrow : row < A.nbrows) (col : Nat) :
    A.find_column_index row col = MAX_INDEX ∨
      (A.rowp.getD row 0 ≤ A.find_column_index row col ∧
        A.find_column_index row col < A.rowp.getD (row + 1) 0 ∧
        A.cols.getD (A.find_column_index row col) 0 = col) := by
  have hse : A.rowp.getD row 0 ≤ A.rowp.getD (row + 1) 0 := hA.2.2.2.2.1 row hrow
  have := scanColsAux_result A.cols col
    (A.rowp.getD (row + 1) 0 - A.rowp.getD row 0) (A.rowp.getD row 0)
  unfold BSRMat.find_column_index
  rcases this with h | ⟨h1, h2, h3⟩
  · exact Or.inl h
  · exact Or.inr ⟨h1, by omega, h3⟩

theorem find_column_index_of_exists {M N : Nat} {T : Type} {A : BSRMat M N T}
    (hA : validPattern A) {row col : Nat} (hrow : row < A.nbrows)
    (h : ∃ q, A.rowp.getD row 0 ≤ q ∧ q < A.rowp.getD (row + 1) 0 ∧
      A.cols.getD q 0 = col) :
    A.rowp.getD row 0 ≤ A.find_column_index row col ∧
      A.find_column_index row col < A.rowp.getD (row + 1) 0 ∧
      A.cols.getD (A.find_column_index row col) 0 = col := by
  have hse : A.rowp.getD row 0 ≤ A.rowp.getD (row + 1) 0 := hA.2.2.2.2.1 row hrow
  obtain ⟨q, h1, h2, h3⟩ := h
  have := scanColsAux_of_exists A.cols col
    (A.rowp.getD (row + 1) 0 - A.rowp.getD row 0) (A.rowp.getD row 0)
    ⟨q, h1, by omega, h3⟩
  unfold BSRMat.find_column_index
  exact ⟨this.1, by omega, this.2.2⟩

theorem find_column_index_lt_nnz {M N : Nat} {T : Type} {A : BSRMat M N T}
    (hA : validPattern A) {row col : Nat} (hrow : row < A.nbrows)
    (hne : A.find_column_index row col ≠ MAX_INDEX) :
    A.rowp.getD row 0 ≤ A.find_column_index row col ∧
      A.find_column_index row col < A.rowp.getD (row + 1) 0 ∧
      A.find_column_index row col < A.nnz ∧
      A.cols.getD (A.find_column_index row col) 0 = col := by
  rcases find_column_index_result hA hrow col with h | ⟨h1, h2, h3⟩
  · exact absurd h hne
  · have := rowp_le_nnz hA (show row + 1 ≤ A.nbrows by omega)
    exact ⟨h1, h2, by omega, h3⟩

theorem find_column_index_eq_MAX_of_none {M N : Nat} {T : Type} {A : BSRMat M N T}
    (hA : validPattern A) {row col : Nat} (hrow : row < A.nbrows)
    (h : ∀ q, A.rowp.getD row 0 ≤ q → q < A.rowp.getD (row + 1) 0 →
      A.cols.getD q 0 ≠ col) :
    A.find_column_index row col = MAX_INDEX := by
  rcases find_column_index_result hA hrow col with h2 | ⟨h1, h2, h3⟩
  · exact h2
  · exact absurd h3 (h _ h1 h2)

theorem find_column_index_congr {M N : Nat} {T : Type} {A B : BSRMat M N T}
    (h : samePattern A B) (row col : Nat) :
    B.find_column_index row col = A.find_column_index row col := by
  unfold BSRMat.find_column_index
  rw [h.2.2.2.1, h.2.2.2.2.1]

theorem samePattern_refl {M N : Nat} {T : Type} (A : BSRMat M N T) :
    samePattern A A :=
  ⟨rfl, rfl, rfl, rfl, rfl, rfl, rfl, rfl, rfl, rfl⟩

theorem samePattern_trans {M N : Nat} {T : Type} {A B C : BSRMat M N T}
    (h1 : samePattern A B) (h2 : samePattern B C) : samePattern A C := by
  obtain ⟨a1, a2, a3, a4, a5, a6, a7, a8, a9, a10⟩ := h1
  obtain ⟨b1, b2, b3, b4, b5, b6, b7, b8, b9, b10⟩ := h2
  exact ⟨a1.trans b1, a2.trans b2, a3.trans b3, a4.trans b4, a5.trans b5,
    a6.trans b6, a7.trans b7, a8.trans b8, a9.trans b9, a10.trans b10⟩

theorem validPattern_congr {M N : Nat} {T : Type} {A B : BSRMat M N T}
    (h : samePattern A B) (hA : validPattern A) : validPattern B := by
  obtain ⟨a1, a2, a3, a4, a5, a6, a7, a8, a9, a10⟩ := h
  unfold validPattern at hA ⊢
  rw [← a1, ← a2, ← a3, ← a4, ← a5]
  exact hA

/-! ### Fold invariants: the operations never touch the pattern or the
metadata, and they preserve the shape of the value buffer -/

theorem foldl_inv {α β : Type _} (P : β → Prop) (step : β → α → β) (l : List α)
    {b : β} (h : P b) (hs : ∀ b x, P b → x ∈ l → P (step b x)) :
    P (l.foldl step b) := by
  induction l generalizing b with
  | nil => exact h
  | cons a t ih =>
    exact ih (hs b a h (by simp)) (fun b x hb hx => hs b x hb (by simp [hx]))

theorem addStep_samePattern {M N : Nat} {T : Type} [Add T] (i j : Nat → Nat)
    (mat : Nat → Nat → T) (A1 : BSRMat M N T) (q : Nat × Nat) :
    samePattern A1 (addStep i j mat A1 q) := by
  unfold addStep
  dsimp only
  split
  · exact ⟨rfl, rfl, rfl, rfl, rfl, rfl, rfl, rfl, rfl, rfl⟩
  · exact samePattern_refl A1

theorem addStep_shape {M N : Nat} {T : Type} [Add T] (i j : Nat → Nat)
    (mat : Nat → Nat → T) (A1 : BSRMat M N T) (q : Nat × Nat) {K : Nat}
    (h : valsShape M N A1.vals K) : valsShape M N (addStep i j mat A1 q).vals K := by
  unfold addStep
  dsimp only
  split
  · exact valsShape_modify3 h _ _ _ _
  · exact h

theorem zrInner_samePattern {M N : Nat} {T : Type} [Zero T] [One T] (br er : Nat)
    (A1 : BSRMat M N T) (jp : Nat) : samePattern A1 (zrInner br er A1 jp) := by
  unfold zrInner
  dsimp only
  split
  · exact ⟨rfl, rfl, rfl, rfl, rfl, rfl, rfl, rfl, rfl, rfl⟩
  · exact ⟨rfl, rfl, rfl, rfl, rfl, rfl, rfl, rfl, rfl, rfl⟩

theorem zrInner_shape {M N : Nat} {T : Type} [Zero T] [One T] (br er : Nat)
    (A1 : BSRMat M N T) (jp : Nat) {K : Nat} (h : valsShape M N A1.vals K) :
    valsShape M N (zrInner br er A1 jp).vals K := by
  have hz : valsShape M N
      ((List.range N).foldl (fun v k => setAt3 v jp er k 0) A1.vals) K :=
    foldl_inv (fun v => valsShape M N v K) _ _ h
      (fun v x hv _ => valsShape_modify3 hv _ _ _ _)
  unfold zrInner
  dsimp only
  split
  · exact valsShape_modify3 hz _ _ _ _
  · exact hz

theorem add_values_samePattern {M N : Nat} {T : Type} [Add T] (A : BSRMat M N T)
    (m : Nat) (i : Nat → Nat) (n : Nat) (j : Nat → Nat) (mat : Nat → Nat → T) :
    samePattern A (A.add_values m i n j mat) := by
  unfold BSRMat.add_values
  refine foldl_inv (samePattern A) _ _ (samePattern_refl A) (fun A0 ii h0 _ => ?_)
  refine foldl_inv (samePattern A) _ _ h0 (fun A1 jj h1 _ => ?_)
  exact samePattern_trans h1 (addStep_samePattern i j mat A1 (ii, jj))

theorem add_values_shape {M N : Nat} {T : Type} [Add T] (A : BSRMat M N T)
    (m : Nat) (i : Nat → Nat) (n : Nat) (j : Nat → Nat) (mat : Nat → Nat → T)
    {K : Nat} (h : valsShape M N A.vals K) :
    valsShape M N (A.add_values m i n j mat).vals K := by
  unfold BSRMat.add_values
  refine foldl_inv (fun B : BSRMat M N T => valsShape M N B.vals K) _ _ h (fun A0 ii h0 _ => ?_)
  refine foldl_inv (fun B : BSRMat M N T => valsShape M N B.vals K) _ _ h0 (fun A1 jj h1 _ => ?_)
  exact addStep_shape i j mat A1 (ii, jj) h1

theorem zrOuter_samePattern {M N : Nat} {T : Type} [Zero T] [One T]
    (dof : Nat → Nat) (A0 : BSRMat M N T) (ii : Nat) :
    samePattern A0 (zrOuter dof A0 ii) := by
  unfold zrOuter
  refine foldl_inv (samePattern A0) _ _ (samePattern_refl A0) (fun A1 jp h1 _ => ?_)
  exact samePattern_trans h1 (zrInner_samePattern _ _ A1 jp)

theorem zrOuter_shape {M N : Nat} {T : Type} [Zero T] [One T]
    (dof : Nat → Nat) (A0 : BSRMat M N T) (ii : Nat) {K : Nat}
    (h : valsShape M N A0.vals K) : valsShape M N (zrOuter dof A0 ii).vals K := by
  unfold zrOuter
  exact foldl_inv (fun B : BSRMat M N T => valsShape M N B.vals K) _ _ h
    (fun A1 jp h1 _ => zrInner_shape _ _ A1 jp h1)

theorem zero_rows_samePattern {M N : Nat} {T : Type} [Zero T] [One T]
    (A : BSRMat M N T) (nbcs : Nat) (dof : Nat → Nat) :
    samePattern A (A.zero_rows nbcs dof) := by
  unfold BSRMat.zero_rows
  refine foldl_inv (samePattern A) _ _ (samePattern_refl A) (fun A0 ii h0 _ => ?_)
  exact samePattern_trans h0 (zrOuter_samePattern dof A0 ii)

theorem zero_rows_shape {M N : Nat} {T : Type} [Zero T] [One T]
    (A : BSRMat M N T) (nbcs : Nat) (dof : Nat → Nat) {K : Nat}
    (h : valsShape M N A.vals K) : valsShape M N (A.zero_rows nbcs dof).vals K := by
  unfold BSRMat.zero_rows
  exact foldl_inv (fun B : BSRMat M N T => valsShape M N B.vals K) _ _ h
    (fun A0 ii h0 _ => zrOuter_shape dof A0 ii h0)

theorem zero_samePattern {M N : Nat} {T : Type} [Zero T] (A : BSRMat M N T) :
    samePattern A A.zero :=
  ⟨rfl, rfl, rfl, rfl, rfl, rfl, rfl, rfl, rfl, rfl⟩

theorem zero_shape {M N : Nat} {T : Type} [Zero T] (A : BSRMat M N T) {K : Nat}
    (h : valsShape M N A.vals K) : valsShape M N A.zero.vals K := by
  obtain ⟨hlen, hblk⟩ := h
  refine ⟨by simpa [BSRMat.zero] using hlen, ?_⟩
  intro blk hb
  rw [BSRMat.zero] at hb
  simp only [List.mem_map] at hb
  obtain ⟨blk0, hb0, rfl⟩ := hb
  obtain ⟨hl0, hr0⟩ := hblk blk0 hb0
  refine ⟨by simpa using hl0, ?_⟩
  intro row hr
  simp only [List.mem_map] at hr
  obtain ⟨row0, hrow0, rfl⟩ := hr
  simpa using hr0 row0 hrow0

/-! ### The scatter-add effect of `add_values` -/

theorem mem_pairList {m n : Nat} {q : Nat × Nat} :
    q ∈ pairList m n ↔ q.1 < m ∧ q.2 < n := by
  unfold pairList
  rw [mem_catMap]
  constructor
  · rintro ⟨a, ha, hq⟩
    simp only [List.mem_map, List.mem_range] at ha hq
    obtain ⟨jj, hjj, rfl⟩ := hq
    exact ⟨ha, hjj⟩
  · rintro ⟨h1, h2⟩
    refine ⟨q.1, by simpa using h1, ?_⟩
    simp only [List.mem_map, List.mem_range]
    exact ⟨q.2, h2, rfl⟩

theorem add_values_eq_pairFold {M N : Nat} {T : Type} [Add T] (A : BSRMat M N T)
    (m : Nat) (i : Nat → Nat) (n : Nat) (j : Nat → Nat) (mat : Nat → Nat → T) :
    A.add_values m i n j mat = (pairList m n).foldl (addStep i j mat) A := by
  unfold BSRMat.add_values pairList
  rw [foldl_catMap]
  simp only [List.foldl_map]

theorem map_catMap {α γ δ : Type _} (f : γ → δ) (g : α → List γ) (l : List α) :
    (catMap g l).map f = catMap (fun a => (g a).map f) l := by
  induction l with
  | nil => rfl
  | cons a t ih => simp [catMap, ih]

theorem sum_catMap {α γ : Type _} [AddCommMonoid γ] (g : α → List γ) (l : List α) :
    (catMap g l).sum = (l.map (fun a => (g a).sum)).sum := by
  induction l with
  | nil => rfl
  | cons a t ih => simp [catMap, ih]

theorem vals3_addStep {M N : Nat} {T : Type} [AddCommMonoid T]
    {A A1 : BSRMat M N T} (hA : validPattern A) (hsp : samePattern A A1)
    (hsh : valsShape M N A1.vals A.nnz) (i j : Nat → Nat) (mat : Nat → Nat → T)
    (q : Nat × Nat) (hbr : i q.1 / M < A.nbrows) {p r c : Nat} (hp : p < A.nnz)
    (hr : r < M) (hc : c < N) :
    vals3 (addStep i j mat A1 q).vals p r c =
      vals3 A1.vals p r c +
        (if A.find_column_index (i q.1 / M) (j q.2 / N) = p ∧
            i q.1 % M = r ∧ j q.2 % N = c
          then mat q.1 q.2 else 0) := by
  have hfc := find_column_index_congr hsp (i q.1 / M) (j q.2 / N)
  unfold addStep
  dsimp only
  rw [hfc]
  by_cases hmax : A.find_column_index (i q.1 / M) (j q.2 / N) = MAX_INDEX
  · rw [if_neg (by simp [hmax])]
    have hfp : A.find_column_index (i q.1 / M) (j q.2 / N) ≠ p := by
      have := hA.2.2.2.2.2.2
      omega
    rw [if_neg (fun hcontra => hfp hcontra.1), add_zero]
  · rw [if_pos hmax]
    obtain ⟨h1, h2, h3, h4⟩ := find_column_index_lt_nnz hA hbr hmax
    by_cases heq : A.find_column_index (i q.1 / M) (j q.2 / N) = p ∧
        i q.1 % M = r ∧ j q.2 % N = c
    · obtain ⟨e1, e2, e3⟩ := heq
      rw [if_pos ⟨e1, e2, e3⟩, e1, e2, e3]
      exact vals3_modify3_eq hsh hp hr hc _
    · rw [if_neg heq, add_zero]
      apply vals3_modify3_ne
      by_cases c1 : A.find_column_index (i q.1 / M) (j q.2 / N) = p
      · by_cases c2 : i q.1 % M = r
        · exact Or.inr (Or.inr (fun c3 => heq ⟨c1, c2, c3⟩))
        · exact Or.inr (Or.inl c2)
      · exact Or.inl c1

theorem vals3_addFold {M N : Nat} {T : Type} [AddCommMonoid T]
    {A : BSRMat M N T} (hA : validPattern A) (i j : Nat → Nat)
    (mat : Nat → Nat → T) {p r c : Nat} (hp : p < A.nnz) (hr : r < M)
    (hc : c < N) (L : List (Nat × Nat)) :
    ∀ A1 : BSRMat M N T, samePattern A A1 → valsShape M N A1.vals A.nnz →
      (∀ q ∈ L, i q.1 / M < A.nbrows) →
      vals3 ((L.foldl (addStep i j mat) A1)).vals p r c =
        vals3 A1.vals p r c +
          (L.map (fun q =>
            if A.find_column_index (i q.1 / M) (j q.2 / N) = p ∧
                i q.1 % M = r ∧ j q.2 % N = c
              then mat q.1 q.2 else 0)).sum := by
  induction L with
  | nil => intro A1 _ _ _; simp
  | cons q L ih =>
    intro A1 hsp hsh hbr
    have hstep := vals3_addStep hA hsp hsh i j mat q (hbr q (by simp)) hp hr hc
    have hsp2 := samePattern_trans hsp (addStep_samePattern i j mat A1 q)
    have hsh2 := addStep_shape i j mat A1 q hsh
    rw [List.foldl_cons, ih _ hsp2 hsh2 (fun q' hq' => hbr q' (by simp [hq'])),
      hstep, List.map_cons, List.sum_cons, add_assoc]

/-! ### The row-elimination effect of `zero_rows` -/

theorem zfold_frame {T : Type} [Zero T] (jp er : Nat) (l : List Nat)
    (v : List (List (List T))) (p' r' c' : Nat)
    (h : jp ≠ p' ∨ er ≠ r' ∨ (∀ k ∈ l, k ≠ c')) :
    vals3 (l.foldl (fun v k => setAt3 v jp er k 0) v) p' r' c' =
      vals3 v p' r' c' := by
  induction l generalizing v with
  | nil => rfl
  | cons a t ih =>
    rw [List.foldl_cons]
    have hstep : vals3 (setAt3 v jp er a 0) p' r' c' = vals3 v p' r' c' := by
      apply vals3_modify3_ne
      rcases h with h | h | h
      · exact Or.inl h
      · exact Or.inr (Or.inl h)
      · exact Or.inr (Or.inr (h a (by simp)))
    rw [ih (setAt3 v jp er a 0) ?_, hstep]
    rcases h with h | h | h
    · exact Or.inl h
    · exact Or.inr (Or.inl h)
    · exact Or.inr (Or.inr (fun k hk => h k (by simp [hk])))

theorem zfold_zero {M N : Nat} {T : Type} [Zero T] {jp er K : Nat} (l : List Nat) :
    ∀ v : List (List (List T)), valsShape M N v K → jp < K → er < M →
      ∀ c', c' ∈ l → c' < N →
      vals3 (l.foldl (fun v k => setAt3 v jp er k 0) v) jp er c' = 0 := by
  induction l with
  | nil =>
    intro v _ _ _ c' hc' _
    simp at hc'
  | cons a t ih =>
    intro v hsh hjp her c' hc' hcN
    rw [List.foldl_cons]
    have hsh2 : valsShape M N (setAt3 v jp er a 0) K :=
      valsShape_modify3 hsh _ _ _ _
    by_cases ha : a = c'
    · subst ha
      by_cases hct : a ∈ t
      · exact ih _ hsh2 hjp her a hct hcN
      · have hframe := zfold_frame jp er t (setAt3 v jp er a 0) jp er a
          (Or.inr (Or.inr (fun k hk hka => hct (hka ▸ hk))))
        rw [hframe]
        exact vals3_modify3_eq hsh hjp her hcN _
    · have hct : c' ∈ t := by
        rcases List.mem_cons.mp hc' with h | h
        · exact absurd h.symm ha
        · exact h
      exact ih _ hsh2 hjp her c' hct hcN

theorem vals3_zrInner_self {M N : Nat} {T : Type} [Zero T] [One T] {K : Nat}
    (br er : Nat) (A1 : BSRMat M N T) (jp : Nat)
    (hsh : valsShape M N A1.vals K) (hjp : jp < K) (her : er < M)
    {c' : Nat} (hc' : c' < N) :
    vals3 (zrInner br er A1 jp).vals jp er c' =
      if A1.cols.getD jp 0 = br ∧ c' = er then 1 else 0 := by
  have hz : vals3 ((List.range N).foldl (fun v k => setAt3 v jp er k 0) A1.vals)
      jp er c' = 0 :=
    zfold_zero (List.range N) A1.vals hsh hjp her c' (List.mem_range.mpr hc') hc'
  have hzsh : valsShape M N
      ((List.range N).foldl (fun v k => setAt3 v jp er k 0) A1.vals) K :=
    foldl_inv (fun v => valsShape M N v K) _ _ hsh
      (fun v x hv _ => valsShape_modify3 hv _ _ _ _)
  unfold zrInner
  dsimp only
  by_cases hcol : A1.cols.getD jp 0 = br
  · rw [if_pos hcol]
    dsimp only
    by_cases hce : c' = er
    · subst hce
      rw [if_pos ⟨hcol, rfl⟩]
      exact vals3_modify3_eq hzsh hjp her hc' _
    · rw [if_neg (fun hand => hce hand.2)]
      exact (vals3_setAt3_ne _ _ _ _ _ _ _ _
        (Or.inr (Or.inr (fun h : er = c' => hce h.symm)))).trans hz
  · rw [if_neg hcol, if_neg (fun hand => hcol hand.1)]
    exact hz

theorem vals3_zrInner_ne {M N : Nat} {T : Type} [Zero T] [One T]
    (br er : Nat) (A1 : BSRMat M N T) (jp : Nat) {p' r' c' : Nat}
    (h : jp ≠ p' ∨ er ≠ r') :
    vals3 (zrInner br er A1 jp).vals p' r' c' = vals3 A1.vals p' r' c' := by
  have hzf := zfold_frame jp er (List.range N) A1.vals p' r' c'
    (by rcases h with h | h
        · exact Or.inl h
        · exact Or.inr (Or.inl h))
  unfold zrInner
  dsimp only
  by_cases hcol : A1.cols.getD jp 0 = br
  · rw [if_pos hcol]
    dsimp only
    exact (vals3_setAt3_ne _ _ _ _ _ _ _ _
      (h.elim (fun hh => Or.inl hh) (fun hh => Or.inr (Or.inl hh)))).trans hzf
  · rw [if_neg hcol]
    exact hzf

theorem innerfold_frame {M N : Nat} {T : Type} [Zero T] [One T]
    (br er : Nat) {p' r' c' : Nat} (l : List Nat) :
    ∀ A1 : BSRMat M N T, (∀ jp ∈ l, jp ≠ p' ∨ er ≠ r') →
      vals3 ((l.foldl (zrInner br er) A1)).vals p' r' c' =
        vals3 A1.vals p' r' c' := by
  induction l with
  | nil =>
    intro A1 _
    rfl
  | cons a t ih =>
    intro A1 h
    rw [List.foldl_cons, ih _ (fun jp hjp => h jp (by simp [hjp])),
      vals3_zrInner_ne br er A1 a (h a (by simp))]

theorem innerfold_spec {M N : Nat} {T : Type} [Zero T] [One T] {K : Nat}
    (br er : Nat) {p : Nat} (l : List Nat) (hnd : l.Nodup) (hp : p ∈ l) :
    ∀ A1 : BSRMat M N T, valsShape M N A1.vals K → p < K → er < M →
      ∀ c', c' < N →
      vals3 ((l.foldl (zrInner br er) A1)).vals p er c' =
        if A1.cols.getD p 0 = br ∧ c' = er then 1 else 0 := by
  induction l with
  | nil => simp at hp
  | cons a t ih =>
    intro A1 hsh hpK her c' hc'
    rw [List.foldl_cons]
    by_cases ha : a = p
    · subst ha
      have hpt : a ∉ t := (List.nodup_cons.mp hnd).1
      rw [innerfold_frame br er t _
        (fun jp hjp => Or.inl (fun e : jp = a => hpt (e ▸ hjp)))]
      exact vals3_zrInner_self br er A1 a hsh hpK her hc'
    · have hpt : p ∈ t := by
        rcases List.mem_cons.mp hp with h | h
        · exact absurd h.symm ha
        · exact h
      have hcols : (zrInner br er A1 a).cols = A1.cols :=
        ((zrInner_samePattern br er A1 a).2.2.2.2.1).symm
      rw [ih (List.nodup_cons.mp hnd).2 hpt _
        (zrInner_shape br er A1 a hsh) hpK her c' hc', hcols]

theorem outer_frame {M N : Nat} {T : Type} [Zero T] [One T]
    {A : BSRMat M N T} (hA : validPattern A)
    {r p e' k : Nat} (hr : r < A.nbrows)
    (hp1 : A.rowp.getD r 0 ≤ p) (hp2 : p < A.rowp.getD (r + 1) 0)
    (dof : Nat → Nat) (L : List Nat) :
    ∀ A0 : BSRMat M N T, samePattern A A0 →
      (∀ ii ∈ L, dof ii < M * A.nbrows) →
      (∀ ii ∈ L, dof ii ≠ M * r + e') →
      vals3 ((L.foldl (zrOuter dof) A0)).vals p e' k = vals3 A0.vals p e' k := by
  induction L with
  | nil =>
    intro A0 _ _ _
    rfl
  | cons ii t ih =>
    intro A0 hsp hrange hnot
    rw [List.foldl_cons]
    have hstep : vals3 (zrOuter dof A0 ii).vals p e' k = vals3 A0.vals p e' k := by
      unfold zrOuter
      apply innerfold_frame
      intro jp hjp
      by_cases he : dof ii % M = e'
      · refine Or.inl (fun hjpp => ?_)
        have hbrr : dof ii / M ≠ r := by
          intro hbr
          refine hnot ii (by simp) ?_
          have hdm := Nat.div_add_mod (dof ii) M
          rw [hbr, he] at hdm
          exact hdm.symm
        have hbrlt : dof ii / M < A.nbrows :=
          Nat.div_lt_of_lt_mul (hrange ii (by simp))
        have hmem := mem_rangeFromTo.mp hjp
        rw [← hsp.2.2.2.1] at hmem
        exact rowRanges_disjoint hA (fun e => hbrr e.symm) hr hbrlt hp1 hp2
          ⟨by omega, by omega⟩
      · exact Or.inr he
    rw [ih _ (samePattern_trans hsp (zrOuter_samePattern dof A0 ii))
      (fun x hx => hrange x (by simp [hx]))
      (fun x hx => hnot x (by simp [hx])), hstep]


/-! ### Reading the copied pattern of the constructor -/

theorem getD_map_range (f : Nat → Nat) {n k : Nat} (d : Nat) (h : k < n) :
    ((List.range n).map f).getD k d = f k := by
  rw [List.getD_eq_getElem?_getD, List.getElem?_map, List.getElem?_range h]
  rfl

/-! ### The claim theorems -/

/-- C1: for every matrix with a valid CSR pattern and every
`add_values(m, i, n, j, mat)` call whose global DOF indices decompose to
in-range block indices, each stored scalar slot `(p, r, c)` ends up holding
its previous value plus the sum of all contributions `mat ii jj` addressed
to it, i.e. those pairs whose target block is found at slot `p` by
`find_column_index` and whose in-block offsets are `(r, c)`; contributions
are added, never overwritten, so assembly into freshly zeroed storage reads
back exactly the sum of the contributions of each slot. -/
theorem add_values_scatter_sum {M N : Nat} {T : Type} [AddCommMonoid T]
    {A : BSRMat M N T} (hA : validPattern A)
    (hsh : valsShape M N A.vals A.nnz) (m : Nat) (i : Nat → Nat) (n : Nat)
    (j : Nat → Nat) (mat : Nat → Nat → T)
    (hi : ∀ ii, ii < m → i ii / M < A.nbrows)
    (hj : ∀ jj, jj < n → j jj / N < A.nbcols)
    {p r c : Nat} (hp : p < A.nnz) (hr : r < M) (hc : c < N) :
    vals3 ((A.add_values m i n j mat)).vals p r c =
      vals3 A.vals p r c +
        ((List.range m).map (fun ii =>
          ((List.range n).map (fun jj =>
            if A.find_column_index (i ii / M) (j jj / N) = p ∧
                i ii % M = r ∧ j jj % N = c
              then mat ii jj else 0)).sum)).sum := by
  rw [add_values_eq_pairFold]
  rw [vals3_addFold hA i j mat hp hr hc (pairList m n) A (samePattern_refl A) hsh
    (fun q hq => hi q.1 (mem_pairList.mp hq).1)]
  congr 1
  unfold pairList
  rw [map_catMap, sum_catMap]
  simp only [List.map_map]
  rfl

/-- Witness for C1 at the worked example of the spec: a diagonal two-block
pattern with two-by-two blocks over the integers, assembled from the
four-by-four local matrix `exMat` over global DOFs `0..3`; the scalar slot
`(0, 0, 1)` receives exactly the one contribution `exMat 0 1`. -/
theorem add_values_scatter_sum_witness :
    (validPattern Aex ∧ valsShape 2 2 Aex.vals Aex.nnz ∧
      (∀ ii, ii < 4 → exI ii / 2 < Aex.nbrows) ∧
      (∀ jj, jj < 4 → exJ jj / 2 < Aex.nbcols) ∧
      (0:Nat) < Aex.nnz ∧ (0:Nat) < 2 ∧ (1:Nat) < 2) ∧
    vals3 ((Aex.add_values 4 exI 4 exJ exMat)).vals 0 0 1 =
      vals3 Aex.vals 0 0 1 +
        ((List.range 4).map (fun ii =>
          ((List.range 4).map (fun jj =>
            if Aex.find_column_index (exI ii / 2) (exJ jj / 2) = 0 ∧
                exI ii % 2 = 0 ∧ exJ jj % 2 = 1
              then exMat ii jj else 0)).sum)).sum :=
  ⟨⟨by decide, by decide, by decide, by decide, by decide, by decide, by decide⟩,
   add_values_scatter_sum (by decide) (by decide) 4 exI 4 exJ exMat
     (by decide) (by decide) (by decide) (by decide) (by decide)⟩

/-- C3: a pair `(ii0, jj0)` of an `add_values` call whose target block is
absent from the pattern contributes nothing: the result does not depend on
the local-matrix entry at that pair, while all other pairs of the same
call are processed normally, so the whole call yields the same matrix for
any two local matrices agreeing outside the dropped pair. -/
theorem add_values_drops_missing_block {M N : Nat} {T : Type} [Add T]
    {A : BSRMat M N T} (m : Nat) (i : Nat → Nat) (n : Nat) (j : Nat → Nat)
    (mat mat' : Nat → Nat → T) {ii0 jj0 : Nat} (hii : ii0 < m) (hjj : jj0 < n)
    (hdrop : A.find_column_index (i ii0 / M) (j jj0 / N) = MAX_INDEX)
    (hagree : ∀ ii, ii < m → ∀ jj, jj < n → (ii, jj) ≠ (ii0, jj0) →
      mat ii jj = mat' ii jj) :
    A.add_values m i n j mat = A.add_values m i n j mat' := by
  rw [add_values_eq_pairFold, add_values_eq_pairFold]
  have key : ∀ L : List (Nat × Nat),
      (∀ q ∈ L, q = (ii0, jj0) ∨ mat q.1 q.2 = mat' q.1 q.2) →
      ∀ B : BSRMat M N T, samePattern A B →
      L.foldl (addStep i j mat) B = L.foldl (addStep i j mat') B := by
    intro L
    induction L with
    | nil =>
      intro _ B _
      rfl
    | cons q t ih =>
      intro hq B hsp
      rw [List.foldl_cons, List.foldl_cons]
      have hstep : addStep i j mat B q = addStep i j mat' B q := by
        rcases hq q (by simp) with h | h
        · subst h
          unfold addStep
          dsimp only
          rw [find_column_index_congr hsp, hdrop]
          simp
        · unfold addStep
          dsimp only
          rw [h]
      rw [hstep]
      exact ih (fun q' hq' => hq q' (by simp [hq'])) _
        (samePattern_trans hsp (addStep_samePattern i j mat' B q))
  refine key (pairList m n) ?_ A (samePattern_refl A)
  intro q hq
  by_cases hq0 : q = (ii0, jj0)
  · exact Or.inl hq0
  · obtain ⟨h1, h2⟩ := mem_pairList.mp hq
    exact Or.inr (hagree q.1 h1 q.2 h2 (by simpa using hq0))

/-- Witness for C3: on the diagonal example pattern, a single-pair call
targeting the absent block `(0, 1)` gives the same result whatever the
local value is (here `5` against `7`): the contribution is dropped. -/
theorem add_values_drops_missing_block_witness :
    ((0:Nat) < 1 ∧ (0:Nat) < 1 ∧
      Aex.find_column_index (0 / 2) (2 / 2) = MAX_INDEX ∧
      (∀ ii, ii < 1 → ∀ jj, jj < 1 → (ii, jj) ≠ ((0:Nat), (0:Nat)) →
        (fun _ _ => (5:Int)) ii jj = (fun _ _ => (7:Int)) ii jj)) ∧
    Aex.add_values 1 (fun _ => 0) 1 (fun _ => 2) (fun _ _ => (5:Int)) =
      Aex.add_values 1 (fun _ => 0) 1 (fun _ => 2) (fun _ _ => (7:Int)) :=
  ⟨⟨by decide, by decide, by decide, by decide⟩,
   @add_values_drops_missing_block 2 2 Int _ Aex 1 (fun _ => 0) 1 (fun _ => 2)
     (fun _ _ => (5:Int)) (fun _ _ => (7:Int)) 0 0 (by decide) (by decide)
     (by decide) (by decide)⟩

/-- C2: after `zero_rows` on the single global scalar DOF `d`, with
`br = d / M` and `e = d % M`, every stored scalar of scalar row `d` equals
zero, except that position `(e, e)` of each block of the row whose column
index equals `br` holds the multiplicative identity; thus the diagonal
scalar is one exactly when the diagonal block is present in the pattern,
and when it is absent the whole stored scalar row is zero. -/
theorem zero_rows_single_dof {M N : Nat} {T : Type} [Zero T] [One T]
    {A : BSRMat M N T} (hA : validPattern A)
    (hsh : valsShape M N A.vals A.nnz) (hM : 0 < M) {d : Nat}
    (hd : d < M * A.nbrows) :
    ∀ p, A.rowp.getD (d / M) 0 ≤ p → p < A.rowp.getD (d / M + 1) 0 →
      ∀ k, k < N →
      vals3 ((A.zero_rows 1 (fun _ => d))).vals p (d % M) k =
        if A.cols.getD p 0 = d / M ∧ k = d % M then 1 else 0 := by
  intro p hp1 hp2 k hk
  have hbr : d / M < A.nbrows := Nat.div_lt_of_lt_mul hd
  unfold BSRMat.zero_rows
  have hr1 : List.range 1 = [0] := by simp [List.range_succ]
  rw [hr1, List.foldl_cons, List.foldl_nil]
  unfold zrOuter
  dsimp only
  exact innerfold_spec (d / M) (d % M) (rangeFromTo _ _) (nodup_rangeFromTo _ _)
    (mem_rangeFromTo.mpr ⟨hp1, hp2⟩) A hsh
    (lt_of_lt_of_le hp2 (rowp_le_nnz hA (by omega)))
    (Nat.mod_lt d hM) k hk

/-- Witness for C2 on the assembled example matrix: constraining DOF `0`
turns slot `(0, 0, 1)` into the off-diagonal value prescribed by the
if-expression (here zero, the diagonal block being present with offset
`1 ≠ 0`). -/
theorem zero_rows_single_dof_witness :
    (validPattern Bex ∧ valsShape 2 2 Bex.vals Bex.nnz ∧ (0:Nat) < 2 ∧
      (0:Nat) < 2 * Bex.nbrows ∧ Bex.rowp.getD 0 0 ≤ 0 ∧
      (0:Nat) < Bex.rowp.getD 1 0 ∧ (1:Nat) < 2) ∧
    vals3 ((Bex.zero_rows 1 (fun _ => 0))).vals 0 0 1 =
      if Bex.cols.getD 0 0 = 0 ∧ (1:Nat) = 0 then 1 else 0 :=
  ⟨⟨by decide, by decide, by decide, by decide, by decide, by decide, by decide⟩,
   zero_rows_single_dof (by decide) (by decide) (by decide) (by decide) 0
     (by decide) (by decide) 1 (by decide)⟩

/-- C10: `zero_rows` leaves every stored scalar outside the constrained
scalar rows unchanged: a slot `(p, e, k)` with `p` in block row `r` is
untouched whenever `M * r + e` is not among the listed DOFs. -/
theorem zero_rows_frame {M N : Nat} {T : Type} [Zero T] [One T]
    {A : BSRMat M N T} (hA : validPattern A)
    {r p e : Nat} (hr : r < A.nbrows)
    (hp1 : A.rowp.getD r 0 ≤ p) (hp2 : p < A.rowp.getD (r + 1) 0)
    (nbcs : Nat) (dof : Nat → Nat)
    (hrange : ∀ ii, ii < nbcs → dof ii < M * A.nbrows)
    (hnot : ∀ ii, ii < nbcs → dof ii ≠ M * r + e) :
    ∀ k, vals3 ((A.zero_rows nbcs dof)).vals p e k = vals3 A.vals p e k := by
  intro k
  unfold BSRMat.zero_rows
  exact outer_frame hA hr hp1 hp2 dof (List.range nbcs) A (samePattern_refl A)
    (fun ii hii => hrange ii (List.mem_range.mp hii))
    (fun ii hii => hnot ii (List.mem_range.mp hii))

/-- Witness for C10: constraining DOF `0` of the assembled example leaves
slot `(1, 0, 1)` of block row `1` (scalar row `2`) unchanged. -/
theorem zero_rows_frame_witness :
    (validPattern Bex ∧ (1:Nat) < Bex.nbrows ∧ Bex.rowp.getD 1 0 ≤ 1 ∧
      (1:Nat) < Bex.rowp.getD 2 0 ∧
      (∀ ii, ii < 1 → (fun _ => (0:Nat)) ii < 2 * Bex.nbrows) ∧
      (∀ ii, ii < 1 → (fun _ => (0:Nat)) ii ≠ 2 * 1 + 0)) ∧
    vals3 ((Bex.zero_rows 1 (fun _ => 0))).vals 1 0 1 = vals3 Bex.vals 1 0 1 :=
  ⟨⟨by decide, by decide, by decide, by decide, by decide, by decide⟩,
   @zero_rows_frame 2 2 Int _ _ Bex (by decide) 1 1 0 (by decide) (by decide)
     (by decide) 1 (fun _ => 0) (by decide) (by decide) 1⟩

/-- C4: `find_column_index(row, col)` returns a storage index `p` with
`rowp[row] ≤ p < rowp[row+1]` and `cols[p] = col` whenever such an index
exists, and otherwise returns the sentinel `MAX_INDEX`, which is distinct
from every valid storage index because `nnz < MAX_INDEX`. -/
theorem find_column_index_spec {M N : Nat} {T : Type} {A : BSRMat M N T}
    (hA : validPattern A) {row : Nat} (hrow : row < A.nbrows) (col : Nat) :
    (∀ q, q < A.nnz → q ≠ MAX_INDEX) ∧
    ((∃ q, A.rowp.getD row 0 ≤ q ∧ q < A.rowp.getD (row + 1) 0 ∧
        A.cols.getD q 0 = col) →
      (A.rowp.getD row 0 ≤ A.find_column_index row col ∧
        A.find_column_index row col < A.rowp.getD (row + 1) 0 ∧
        A.cols.getD (A.find_column_index row col) 0 = col)) ∧
    ((∀ q, A.rowp.getD row 0 ≤ q → q < A.rowp.getD (row + 1) 0 →
        A.cols.getD q 0 ≠ col) →
      A.find_column_index row col = MAX_INDEX) := by
  refine ⟨fun q hq => ?_, fun h => find_column_index_of_exists hA hrow h,
    fun h => find_column_index_eq_MAX_of_none hA hrow h⟩
  have := hA.2.2.2.2.2.2
  omega

/-- Witness for C4: on the example pattern, row `0` holds column `0` at
slot `0`, and the lookup finds it. -/
theorem find_column_index_spec_witness :
    (validPattern Aex ∧ (0:Nat) < Aex.nbrows) ∧
    ((∀ q, q < Aex.nnz → q ≠ MAX_INDEX) ∧
      ((∃ q, Aex.rowp.getD 0 0 ≤ q ∧ q < Aex.rowp.getD 1 0 ∧
          Aex.cols.getD q 0 = 0) →
        (Aex.rowp.getD 0 0 ≤ Aex.find_column_index 0 0 ∧
          Aex.find_column_index 0 0 < Aex.rowp.getD 1 0 ∧
          Aex.cols.getD (Aex.find_column_index 0 0) 0 = 0)) ∧
      ((∀ q, Aex.rowp.getD 0 0 ≤ q → q < Aex.rowp.getD 1 0 →
          Aex.cols.getD q 0 ≠ 0) →
        Aex.find_column_index 0 0 = MAX_INDEX)) :=
  ⟨⟨by decide, by decide⟩, find_column_index_spec (by decide) (by decide) 0⟩

/-- C7: `zero`, `add_values` and `zero_rows` mutate only the value buffer:
the counts `nbrows`, `nbcols`, `nnz`, the pattern arrays `rowp`, `cols`,
and the metadata `diag`, `perm`, `iperm`, `num_colors`, `color_count` are
identical before and after; `find_column_index`, `to_dense` and
`write_mtx` are read-only functions of the matrix and return no mutated
state at all. -/
theorem pattern_metadata_immutable {M N : Nat} {T : Type} [Zero T] [One T]
    [Add T] (A : BSRMat M N T) (m : Nat) (i : Nat → Nat) (n : Nat)
    (j : Nat → Nat) (mat : Nat → Nat → T) (nbcs : Nat) (dof : Nat → Nat) :
    samePattern A A.zero ∧ samePattern A (A.add_values m i n j mat) ∧
      samePattern A (A.zero_rows nbcs dof) :=
  ⟨zero_samePattern A, add_values_samePattern A m i n j mat,
    zero_rows_samePattern A nbcs dof⟩

/-- C8: the constructor copies the pattern element-wise (`rowp[k]` for
`k ≤ nbrows`, `cols[k]` for `k < nnz`), and for input satisfying the CSR
boundary invariants, `rowp[0] = 0` and `rowp[nbrows] = nnz` hold after
construction. -/
theorem mkBSRMat_copies_pattern (M N : Nat) {T : Type} [Zero T]
    (nbrows nbcols nnz : Nat) (rowp_ cols_ : Nat → Nat) :
    (∀ k, k ≤ nbrows →
      (mkBSRMat M N nbrows nbcols nnz rowp_ cols_ : BSRMat M N T).rowp.getD k 0 =
        rowp_ k) ∧
    (∀ k, k < nnz →
      (mkBSRMat M N nbrows nbcols nnz rowp_ cols_ : BSRMat M N T).cols.getD k 0 =
        cols_ k) ∧
    (rowp_ 0 = 0 ∧ rowp_ nbrows = nnz →
      (mkBSRMat M N nbrows nbcols nnz rowp_ cols_ : BSRMat M N T).rowp.getD 0 0 = 0 ∧
      (mkBSRMat M N nbrows nbcols nnz rowp_ cols_ : BSRMat M N T).rowp.getD nbrows 0 =
        nnz) := by
  have hrowp : ∀ k, k ≤ nbrows →
      (mkBSRMat M N nbrows nbcols nnz rowp_ cols_ : BSRMat M N T).rowp.getD k 0 =
        rowp_ k := by
    intro k hk
    unfold mkBSRMat
    exact getD_map_range rowp_ 0 (by omega)
  refine ⟨hrowp, ?_, ?_⟩
  · intro k hk
    unfold mkBSRMat
    exact getD_map_range cols_ 0 hk
  · rintro ⟨h0, hn⟩
    exact ⟨(hrowp 0 (by omega)).trans h0, (hrowp nbrows (le_refl _)).trans hn⟩

/-- Witness for C8 on the example constructor call. -/
theorem mkBSRMat_copies_pattern_witness :
    Aex.rowp.getD 0 0 = exRowp 0 ∧ Aex.rowp.getD 2 0 = exRowp 2 ∧
      Aex.cols.getD 1 0 = exCols 1 ∧ Aex.rowp.getD 0 0 = 0 ∧
      Aex.rowp.getD 2 0 = Aex.nnz := by
  obtain ⟨h1, h2, h3⟩ := @mkBSRMat_copies_pattern 2 2 Int _ 2 2 2 exRowp exCols
  exact ⟨h1 0 (by decide), h1 2 (by decide), h2 1 (by decide),
    (h3 ⟨by decide, by decide⟩).1, (h3 ⟨by decide, by decide⟩).2⟩

/-- C9: after `zero()` every scalar of the value buffer is the additive
identity, and `zero()` is idempotent: a second call leaves the matrix in
exactly the state of the first. -/
theorem zero_zeroes_and_idempotent {M N : Nat} {T : Type} [Zero T]
    (A : BSRMat M N T) :
    (∀ blk ∈ A.zero.vals, ∀ row ∈ blk, ∀ x ∈ row, x = (0 : T)) ∧
      A.zero.zero = A.zero := by
  constructor
  · intro blk hb row hr x hx
    unfold BSRMat.zero at hb
    simp only [List.mem_map] at hb
    obtain ⟨b0, _, rfl⟩ := hb
    simp only [List.mem_map] at hr
    obtain ⟨r0, _, rfl⟩ := hr
    simp only [List.mem_map] at hx
    obtain ⟨x0, _, rfl⟩ := hx
    rfl
  · unfold BSRMat.zero
    dsimp only
    congr 1
    rw [List.map_map]
    apply List.map_congr_left
    intro blk _
    simp only [Function.comp_apply, List.map_map]
    apply List.map_congr_left
    intro row _
    simp only [Function.comp_apply, List.map_map]
    apply List.map_congr_left
    intro x _
    rfl

/-- Witness for C9 on the assembled example matrix: the scalar at slot
`(0, 1, 0)` of the zeroed matrix is `0`, and zeroing twice equals zeroing
once. -/
theorem zero_zeroes_and_idempotent_witness :
    (Bex.zero.vals.getD 0 [] ∈ Bex.zero.vals ∧
      (Bex.zero.vals.getD 0 []).getD 1 [] ∈ Bex.zero.vals.getD 0 [] ∧
      ((Bex.zero.vals.getD 0 []).getD 1 []).getD 0 0 ∈
        (Bex.zero.vals.getD 0 []).getD 1 []) ∧
    ((Bex.zero.vals.getD 0 []).getD 1 []).getD 0 0 = (0 : Int) ∧
    Bex.zero.zero = Bex.zero := by
  have h := zero_zeroes_and_idempotent Bex
  exact ⟨⟨by decide, by decide, by decide⟩,
    h.1 (Bex.zero.vals.getD 0 []) (by decide)
      ((Bex.zero.vals.getD 0 []).getD 1 []) (by decide)
      (((Bex.zero.vals.getD 0 []).getD 1 []).getD 0 0) (by decide), h.2⟩


/-! ### Write-list semantics of the dense export -/

theorem getD_setAt_eq {α : Type _} (l : List α) (k : Nat) (x : α) (d : α)
    (h : k < l.length) : (setAt l k x).getD k d = x :=
  getD_updAt_eq l k _ d h

theorem getD_setAt_ne {α : Type _} (l : List α) (k k' : Nat) (x : α) (d : α)
    (h : k ≠ k') : (setAt l k x).getD k' d = l.getD k' d :=
  getD_updAt_ne l k k' _ d h

theorem getD_replicate_zero {T : Type} [Zero T] (n k : Nat) :
    (List.replicate n (0 : T)).getD k 0 = 0 := by
  induction n generalizing k with
  | zero => rfl
  | succ n ih =>
    cases k with
    | zero => rfl
    | succ k => exact ih k

theorem length_foldl_setAt {T : Type} (ws : List (Nat × T)) :
    ∀ b : List T, (ws.foldl (fun b w => setAt b w.1 w.2) b).length = b.length := by
  induction ws with
  | nil => intro b; rfl
  | cons w t ih =>
    intro b
    rw [List.foldl_cons, ih]
    exact length_updAt b w.1 _

theorem lastWrite_append {T : Type} (ws : List (Nat × T)) (w : Nat × T) (q : Nat) :
    lastWrite (ws ++ [w]) q = if w.1 = q then some w.2 else lastWrite ws q := by
  unfold lastWrite
  rw [List.foldl_append]
  rfl

theorem lastWrite_eq_none_iff {T : Type} (ws : List (Nat × T)) (q : Nat) :
    lastWrite ws q = none ↔ ∀ w ∈ ws, w.1 ≠ q := by
  induction ws using List.reverseRecOn with
  | nil => simp [lastWrite]
  | append_singleton t w ih =>
    rw [lastWrite_append]
    by_cases hw : w.1 = q
    · rw [if_pos hw]
      constructor
      · intro h
        exact absurd h (Option.some_ne_none _)
      · intro h
        exact absurd hw (h w (List.mem_append.mpr (Or.inr (by simp))))
    · rw [if_neg hw, ih]
      constructor
      · intro h w' hw'
        rcases List.mem_append.mp hw' with h2 | h2
        · exact h w' h2
        · rw [List.mem_singleton.mp h2]
          exact hw
      · intro h w' hw'
        exact h w' (List.mem_append.mpr (Or.inl hw'))

theorem lastWrite_eq_some {T : Type} (ws : List (Nat × T)) (q : Nat) (v : T)
    (hex : ∃ w ∈ ws, w.1 = q) (huniq : ∀ w ∈ ws, w.1 = q → w.2 = v) :
    lastWrite ws q = some v := by
  induction ws using List.reverseRecOn with
  | nil =>
    obtain ⟨w, hw, _⟩ := hex
    simp at hw
  | append_singleton t w ih =>
    rw [lastWrite_append]
    by_cases hw : w.1 = q
    · rw [if_pos hw, huniq w (List.mem_append.mpr (Or.inr (by simp))) hw]
    · rw [if_neg hw]
      apply ih
      · obtain ⟨w', hw', hq'⟩ := hex
        rcases List.mem_append.mp hw' with h2 | h2
        · exact ⟨w', h2, hq'⟩
        · rw [List.mem_singleton.mp h2] at hq'
          exact absurd hq' hw
      · intro w' hw' hq'
        exact huniq w' (List.mem_append.mpr (Or.inl hw')) hq'

theorem foldl_setAt_getD {T : Type} (ws : List (Nat × T)) (b : List T) (d : T)
    {q : Nat} (hq : q < b.length) :
    (ws.foldl (fun b w => setAt b w.1 w.2) b).getD q d =
      (lastWrite ws q).getD (b.getD q d) := by
  induction ws using List.reverseRecOn with
  | nil => rfl
  | append_singleton t w ih =>
    rw [List.foldl_append, List.foldl_cons, List.foldl_nil, lastWrite_append]
    by_cases hw : w.1 = q
    · rw [if_pos hw]
      have hlen : q < (t.foldl (fun b w => setAt b w.1 w.2) b).length := by
        rw [length_foldl_setAt]
        exact hq
      rw [← hw] at hlen ⊢
      rw [getD_setAt_eq _ _ _ _ hlen]
      rfl
    · rw [if_neg hw, getD_setAt_ne _ _ _ _ _ hw]
      exact ih

/-! ### Position decomposition of the dense buffer -/

theorem decomp_unique {n R C R2 C2 : Nat} (hC : C < n) (hC2 : C2 < n)
    (h : n * R + C = n * R2 + C2) : R = R2 ∧ C = C2 := by
  have hR : R = R2 := by
    by_contra hne
    rcases Nat.lt_or_ge R R2 with hlt | hge
    · have h1 : n * (R + 1) = n * R + n := Nat.mul_succ n R
      have h2 : n * (R + 1) ≤ n * R2 := Nat.mul_le_mul_left n hlt
      omega
    · have hlt2 : R2 + 1 ≤ R := by omega
      have h1 : n * (R2 + 1) = n * R2 + n := Nat.mul_succ n R2
      have h2 : n * (R2 + 1) ≤ n * R := Nat.mul_le_mul_left n hlt2
      omega
  subst hR
  omega

theorem linIdx_lt {n a b K : Nat} (ha : a < K) (hb : b < n) :
    n * a + b < n * K := by
  have h1 : n * (a + 1) = n * a + n := Nat.mul_succ n a
  have h2 : n * (a + 1) ≤ n * K := Nat.mul_le_mul_left n ha
  omega

theorem linIdx_div {n a b : Nat} (hn : 0 < n) (hb : b < n) :
    (n * a + b) / n = a := by
  rw [Nat.mul_add_div hn, Nat.div_eq_of_lt hb, Nat.add_zero]

/-! ### Characterisation of the dense export -/

theorem to_dense_eq {M N : Nat} {T : Type} [Zero T] (A : BSRMat M N T) :
    (A.to_dense).2.2 =
      (denseWrites A).foldl (fun b w => setAt b w.1 w.2)
        (List.replicate (M * A.nbrows * (N * A.nbcols)) 0) := by
  unfold BSRMat.to_dense denseWrites
  dsimp only
  simp only [foldl_catMap, List.foldl_map]

theorem mem_denseWrites {M N : Nat} {T : Type} [Zero T] {A : BSRMat M N T}
    {w : Nat × T} :
    w ∈ denseWrites A ↔
      ∃ i jp ii jj, i < A.nbrows ∧ A.rowp.getD i 0 ≤ jp ∧
        jp < A.rowp.getD (i + 1) 0 ∧ ii < M ∧ jj < N ∧
        w = (N * A.nbcols * (M * i + ii) + (N * A.cols.getD jp 0 + jj),
          vals3 A.vals jp ii jj) := by
  unfold denseWrites
  simp only [mem_catMap, List.mem_map, List.mem_range, mem_rangeFromTo]
  constructor
  · rintro ⟨i, hi, jp, ⟨h1, h2⟩, ii, hii, jj, hjj, rfl⟩
    exact ⟨i, jp, ii, jj, hi, h1, h2, hii, hjj, rfl⟩
  · rintro ⟨i, jp, ii, jj, hi, h1, h2, hii, hjj, rfl⟩
    exact ⟨i, hi, jp, ⟨h1, h2⟩, ii, hii, jj, hjj, rfl⟩

theorem cols_lt_nbcols {M N : Nat} {T : Type} {A : BSRMat M N T}
    (hA : validPattern A) {i jp : Nat} (hi : i < A.nbrows)
    (h2 : jp < A.rowp.getD (i + 1) 0) : A.cols.getD jp 0 < A.nbcols := by
  refine hA.2.2.2.2.2.1 jp ?_
  have := rowp_le_nnz hA (show i + 1 ≤ A.nbrows by omega)
  omega

theorem denseWrites_unique {M N : Nat} {T : Type} [Zero T] {A : BSRMat M N T}
    (hA : validPattern A) (hdup : dupFree A) {w w' : Nat × T}
    (hw : w ∈ denseWrites A) (hw' : w' ∈ denseWrites A) (hq : w.1 = w'.1) :
    w.2 = w'.2 := by
  obtain ⟨i, jp, ii, jj, hi, h1, h2, hii, hjj, rfl⟩ := mem_denseWrites.mp hw
  obtain ⟨i2, jp2, ii2, jj2, hi2, h12, h22, hii2, hjj2, rfl⟩ := mem_denseWrites.mp hw'
  dsimp only at hq ⊢
  have hC1 : N * A.cols.getD jp 0 + jj < N * A.nbcols :=
    linIdx_lt (cols_lt_nbcols hA hi h2) hjj
  have hC2 : N * A.cols.getD jp2 0 + jj2 < N * A.nbcols :=
    linIdx_lt (cols_lt_nbcols hA hi2 h22) hjj2
  obtain ⟨hR, hC⟩ := decomp_unique hC1 hC2 hq
  obtain ⟨hieq, hiieq⟩ := decomp_unique hii hii2 hR
  obtain ⟨hjeq, hjjeq⟩ := decomp_unique hjj hjj2 hC
  subst hieq
  subst hiieq
  subst hjjeq
  have hjpeq : jp = jp2 := hdup i hi jp h2 jp2 h22 ⟨h1, h12, hjeq⟩
  subst hjpeq
  rfl

theorem to_dense_entry {M N : Nat} {T : Type} [Zero T] {A : BSRMat M N T}
    (hA : validPattern A) (hdup : dupFree A) {i jp ii jj : Nat}
    (hi : i < A.nbrows) (h1 : A.rowp.getD i 0 ≤ jp)
    (h2 : jp < A.rowp.getD (i + 1) 0) (hii : ii < M) (hjj : jj < N) :
    (A.to_dense).2.2.getD
        (N * A.nbcols * (M * i + ii) + (N * A.cols.getD jp 0 + jj)) 0 =
      vals3 A.vals jp ii jj := by
  rw [to_dense_eq]
  have hC : N * A.cols.getD jp 0 + jj < N * A.nbcols :=
    linIdx_lt (cols_lt_nbcols hA hi h2) hjj
  have hR : M * i + ii < M * A.nbrows := linIdx_lt hi hii
  have hq : N * A.nbcols * (M * i + ii) + (N * A.cols.getD jp 0 + jj) <
      M * A.nbrows * (N * A.nbcols) := by
    have := linIdx_lt hR hC
    rw [Nat.mul_comm (M * A.nbrows)]
    exact this
  rw [foldl_setAt_getD _ _ _ (by rw [List.length_replicate]; exact hq)]
  have hmem : ((N * A.nbcols * (M * i + ii) + (N * A.cols.getD jp 0 + jj)),
      vals3 A.vals jp ii jj) ∈ denseWrites A :=
    mem_denseWrites.mpr ⟨i, jp, ii, jj, hi, h1, h2, hii, hjj, rfl⟩
  have hlw : lastWrite (denseWrites A)
      (N * A.nbcols * (M * i + ii) + (N * A.cols.getD jp 0 + jj)) =
      some (vals3 A.vals jp ii jj) := by
    refine lastWrite_eq_some _ _ _ ⟨_, hmem, rfl⟩ ?_
    intro w hw hwq
    exact denseWrites_unique hA hdup hw hmem hwq
  rw [hlw]
  rfl

theorem to_dense_zero {M N : Nat} {T : Type} [Zero T] {A : BSRMat M N T}
    (hA : validPattern A) (hM : 0 < M) (hN : 0 < N) {r c : Nat}
    (hr : r < M * A.nbrows) (hc : c < N * A.nbcols)
    (habs : ∀ jp, A.rowp.getD (r / M) 0 ≤ jp → jp < A.rowp.getD (r / M + 1) 0 →
      A.cols.getD jp 0 ≠ c / N) :
    (A.to_dense).2.2.getD (N * A.nbcols * r + c) 0 = 0 := by
  rw [to_dense_eq]
  have hq : N * A.nbcols * r + c < M * A.nbrows * (N * A.nbcols) := by
    have := linIdx_lt hr hc
    rw [Nat.mul_comm (M * A.nbrows)]
    exact this
  rw [foldl_setAt_getD _ _ _ (by rw [List.length_replicate]; exact hq)]
  have hnone : lastWrite (denseWrites A) (N * A.nbcols * r + c) = none := by
    rw [lastWrite_eq_none_iff]
    intro w hw hweq
    obtain ⟨i, jp, ii, jj, hi, h1, h2, hii, hjj, rfl⟩ := mem_denseWrites.mp hw
    dsimp only at hweq
    have hC1 : N * A.cols.getD jp 0 + jj < N * A.nbcols :=
      linIdx_lt (cols_lt_nbcols hA hi h2) hjj
    obtain ⟨hR, hC⟩ := decomp_unique hC1 hc hweq
    have hieq : i = r / M := by
      rw [← hR, linIdx_div hM hii]
    have hjeq : A.cols.getD jp 0 = c / N := by
      rw [← hC, linIdx_div hN hjj]
    exact habs jp (hieq ▸ h1) (hieq ▸ h2) hjeq
  rw [hnone]
  exact getD_replicate_zero _ _


/-- C5: for a valid, duplicate-free pattern, `to_dense` returns the
dimensions `m = M*nbrows`, `n = N*nbcols` and a buffer of `m*n` scalars in
which every stored block scalar appears at its row-major dense position
`n*(M*i+ii) + (N*cols[jp]+jj)`, and every dense position not covered by
any pattern block holds zero. -/
theorem to_dense_spec {M N : Nat} {T : Type} [Zero T] {A : BSRMat M N T}
    (hA : validPattern A) (hdup : dupFree A) (hM : 0 < M) (hN : 0 < N) :
    (A.to_dense).1 = M * A.nbrows ∧
    (A.to_dense).2.1 = N * A.nbcols ∧
    (A.to_dense).2.2.length = M * A.nbrows * (N * A.nbcols) ∧
    (∀ i, i < A.nbrows → ∀ jp, A.rowp.getD i 0 ≤ jp →
      jp < A.rowp.getD (i + 1) 0 → ∀ ii, ii < M → ∀ jj, jj < N →
      (A.to_dense).2.2.getD
          (N * A.nbcols * (M * i + ii) + (N * A.cols.getD jp 0 + jj)) 0 =
        vals3 A.vals jp ii jj) ∧
    (∀ r, r < M * A.nbrows → ∀ c, c < N * A.nbcols →
      (∀ jp, A.rowp.getD (r / M) 0 ≤ jp → jp < A.rowp.getD (r / M + 1) 0 →
        A.cols.getD jp 0 ≠ c / N) →
      (A.to_dense).2.2.getD (N * A.nbcols * r + c) 0 = 0) := by
  refine ⟨rfl, rfl, ?_, ?_, ?_⟩
  · rw [to_dense_eq, length_foldl_setAt, List.length_replicate]
  · intro i hi jp h1 h2 ii hii jj hjj
    exact to_dense_entry hA hdup hi h1 h2 hii hjj
  · intro r hr c hc habs
    exact to_dense_zero hA hM hN hr hc habs

/-- Witness for C5 on the assembled example matrix: the stored scalar
`(0, 0, 1)` appears at dense position `(0, 1)` and the uncovered dense
position `(0, 2)` is zero. -/
theorem to_dense_spec_witness :
    (validPattern Bex ∧ dupFree Bex ∧ (0:Nat) < 2 ∧ (0:Nat) < 2) ∧
    (Bex.to_dense).2.2.getD
        (2 * Bex.nbcols * (2 * 0 + 0) + (2 * Bex.cols.getD 0 0 + 1)) 0 =
      vals3 Bex.vals 0 0 1 ∧
    (Bex.to_dense).2.2.getD (2 * Bex.nbcols * 0 + 2) 0 = 0 := by
  have h := @to_dense_spec 2 2 Int _ Bex (by decide) (by decide) (by decide)
    (by decide)
  exact ⟨⟨by decide, by decide, by decide, by decide⟩,
    h.2.2.2.1 0 (by decide) 0 (by decide) (by decide) 0 (by decide) 1 (by decide),
    h.2.2.2.2 0 (by decide) 2 (by decide) (by decide)⟩

/-! ### Characterisation of the MatrixMarket export -/

theorem mem_mtxEntries {M N : Nat} {T : Type} [Zero T] {A : BSRMat M N T}
    {e : Nat × Nat × T} :
    e ∈ (A.write_mtx).entries ↔
      ∃ i jp ii jj, i < A.nbrows ∧ A.rowp.getD i 0 ≤ jp ∧
        jp < A.rowp.getD (i + 1) 0 ∧ ii < M ∧ jj < N ∧
        e = (M * i + ii + 1,
          (N * A.cols.getD jp 0 + jj + 1, vals3 A.vals jp ii jj)) := by
  unfold BSRMat.write_mtx
  dsimp only
  simp only [mem_catMap, List.mem_map, List.mem_range, mem_rangeFromTo]
  constructor
  · rintro ⟨i, hi, jp, ⟨h1, h2⟩, ii, hii, jj, hjj, rfl⟩
    exact ⟨i, jp, ii, jj, hi, h1, h2, hii, hjj, rfl⟩
  · rintro ⟨i, jp, ii, jj, hi, h1, h2, hii, hjj, rfl⟩
    exact ⟨i, hi, jp, ⟨h1, h2⟩, ii, hii, jj, hjj, rfl⟩

theorem sum_range_sub (f : Nat → Nat) (K : Nat)
    (hmono : ∀ k, k < K → f k ≤ f (k + 1)) :
    ((List.range K).map (fun k => f (k + 1) - f k)).sum = f K - f 0 ∧
      f 0 ≤ f K := by
  induction K with
  | zero => simp
  | succ K ih =>
    obtain ⟨hs, hle⟩ := ih (fun k hk => hmono k (by omega))
    rw [List.range_succ, List.map_append, List.sum_append]
    simp only [List.map_cons, List.map_nil, List.sum_cons, List.sum_nil]
    have := hmono K (by omega)
    omega

theorem mtxEntries_length {M N : Nat} {T : Type} [Zero T] {A : BSRMat M N T}
    (hA : validPattern A) :
    (A.write_mtx).entries.length = A.nnz * M * N := by
  unfold BSRMat.write_mtx
  dsimp only
  rw [length_catMap]
  have hinner : ∀ i : Nat,
      (catMap (fun jp =>
        catMap (fun ii =>
          (List.range N).map (fun jj =>
            (M * i + ii + 1,
              (N * A.cols.getD jp 0 + jj + 1, vals3 A.vals jp ii jj))))
          (List.range M))
        (rangeFromTo (A.rowp.getD i 0) (A.rowp.getD (i + 1) 0))).length =
      (A.rowp.getD (i + 1) 0 - A.rowp.getD i 0) * (M * N) := by
    intro i
    rw [length_catMap]
    have hmid : ∀ jp : Nat,
        (catMap (fun ii =>
          (List.range N).map (fun jj =>
            (M * i + ii + 1,
              (N * A.cols.getD jp 0 + jj + 1, vals3 A.vals jp ii jj))))
          (List.range M)).length = M * N := by
      intro jp
      rw [length_catMap]
      have : ∀ ii : Nat,
          ((List.range N).map (fun jj =>
            (M * i + ii + 1,
              (N * A.cols.getD jp 0 + jj + 1, vals3 A.vals jp ii jj)))).length =
          N := by
        intro ii
        rw [List.length_map, List.length_range]
      rw [List.map_congr_left (fun ii _ => this ii)]
      rw [List.map_const', List.sum_replicate, List.length_range, smul_eq_mul]
    rw [List.map_congr_left (fun jp _ => hmid jp)]
    rw [List.map_const', List.sum_replicate, length_rangeFromTo, smul_eq_mul]
  rw [List.map_congr_left (fun i _ => hinner i)]
  have hfact : ((List.range A.nbrows).map
      (fun i => (A.rowp.getD (i + 1) 0 - A.rowp.getD i 0) * (M * N))).sum =
      ((List.range A.nbrows).map
        (fun i => A.rowp.getD (i + 1) 0 - A.rowp.getD i 0)).sum * (M * N) :=
    List.sum_map_mul_right _ _ _
  rw [hfact]
  obtain ⟨hs, _⟩ := sum_range_sub (fun k => A.rowp.getD k 0) A.nbrows
    (fun k hk => hA.2.2.2.2.1 k hk)
  rw [hs, hA.2.2.2.1, hA.2.2.1, Nat.sub_zero, Nat.mul_assoc]

/-- C6: the file written by `write_mtx` consists of the MatrixMarket
coordinate-real-general header, the size line `(M*nbrows, N*nbcols,
nnz*M*N)`, and exactly `nnz*M*N` entry lines in pattern order with
one-based scalar coordinates; every entry line `(r, c, v)` satisfies
`v = to_dense[r-1][c-1]`, and every in-range dense position not named by
any entry line is zero in `to_dense`, so the two exports describe the
same scalar matrix. -/
theorem write_mtx_matches_to_dense {M N : Nat} {T : Type} [Zero T]
    {A : BSRMat M N T} (hA : validPattern A) (hdup : dupFree A)
    (hM : 0 < M) (hN : 0 < N) :
    (A.write_mtx).header = "%%MatrixMarket matrix coordinate real general" ∧
    (A.write_mtx).nrows = M * A.nbrows ∧
    (A.write_mtx).ncols = N * A.nbcols ∧
    (A.write_mtx).nnzEntries = A.nnz * M * N ∧
    (A.write_mtx).entries.length = A.nnz * M * N ∧
    (∀ e ∈ (A.write_mtx).entries,
      1 ≤ e.1 ∧ e.1 ≤ M * A.nbrows ∧ 1 ≤ e.2.1 ∧ e.2.1 ≤ N * A.nbcols ∧
      (A.to_dense).2.2.getD (N * A.nbcols * (e.1 - 1) + (e.2.1 - 1)) 0 = e.2.2) ∧
    (∀ r, r < M * A.nbrows → ∀ c, c < N * A.nbcols →
      (∀ e ∈ (A.write_mtx).entries, ¬(e.1 = r + 1 ∧ e.2.1 = c + 1)) →
      (A.to_dense).2.2.getD (N * A.nbcols * r + c) 0 = 0) := by
  refine ⟨rfl, Nat.mul_comm A.nbrows M, Nat.mul_comm A.nbcols N, rfl,
    mtxEntries_length hA, ?_, ?_⟩
  · intro e he
    obtain ⟨i, jp, ii, jj, hi, h1, h2, hii, hjj, rfl⟩ := mem_mtxEntries.mp he
    dsimp only
    have hR : M * i + ii < M * A.nbrows := linIdx_lt hi hii
    have hC : N * A.cols.getD jp 0 + jj < N * A.nbcols :=
      linIdx_lt (cols_lt_nbcols hA hi h2) hjj
    refine ⟨by omega, by omega, by omega, by omega, ?_⟩
    have hent := to_dense_entry hA hdup hi h1 h2 hii hjj
    have e1 : M * i + ii + 1 - 1 = M * i + ii := by omega
    have e2 : N * A.cols.getD jp 0 + jj + 1 - 1 = N * A.cols.getD jp 0 + jj := by
      omega
    rw [e1, e2]
    exact hent
  · intro r hr c hc hnolist
    refine to_dense_zero hA hM hN hr hc ?_
    intro jp h1 h2 hcoleq
    have hmem : (M * (r / M) + r % M + 1,
        (N * A.cols.getD jp 0 + c % N + 1, vals3 A.vals jp (r % M) (c % N))) ∈
        (A.write_mtx).entries :=
      mem_mtxEntries.mpr ⟨r / M, jp, r % M, c % N, Nat.div_lt_of_lt_mul hr,
        h1, h2, Nat.mod_lt r hM, Nat.mod_lt c hN, rfl⟩
    refine hnolist _ hmem ⟨?_, ?_⟩
    · dsimp only
      have := Nat.div_add_mod r M
      omega
    · dsimp only
      rw [hcoleq]
      have := Nat.div_add_mod c N
      omega

/-- Witness for C6 on the assembled example: the header, the size data,
the entry count, the read-back of the entry line `(1, 2, ·)`, and the
zero at the unlisted position `(0, 2)`. -/
theorem write_mtx_matches_to_dense_witness :
    (validPattern Bex ∧ dupFree Bex ∧ (0:Nat) < 2 ∧ (0:Nat) < 2) ∧
    (Bex.write_mtx).header = "%%MatrixMarket matrix coordinate real general" ∧
    (Bex.write_mtx).entries.length = Bex.nnz * 2 * 2 ∧
    ((1, 2, vals3 Bex.vals 0 0 1) ∈ (Bex.write_mtx).entries →
      (Bex.to_dense).2.2.getD
          (2 * Bex.nbcols * ((1:Nat) - 1) + ((2:Nat) - 1)) 0 =
        vals3 Bex.vals 0 0 1) ∧
    (Bex.to_dense).2.2.getD (2 * Bex.nbcols * 0 + 2) 0 = 0 := by
  have h := @write_mtx_matches_to_dense 2 2 Int _ Bex (by decide) (by decide)
    (by decide) (by decide)
  refine ⟨⟨by decide, by decide, by decide, by decide⟩, h.1, h.2.2.2.2.1, ?_, ?_⟩
  · intro hmem
    exact (h.2.2.2.2.2.1 (1, 2, vals3 Bex.vals 0 0 1) hmem).2.2.2.2
  · exact h.2.2.2.2.2.2 0 (by decide) 2 (by decide) (by decide)

end A2D
